import Mathlib

/-
Verification of the translation-consistency validator (scripts/validate.ts).

The script is embedded shallowly: JSON documents become the `Json` inductive,
the flattener, ICU placeholder collector, per-key checks, per-namespace and
per-locale loops and the driver become Lean functions mirroring the source
line by line.  JavaScript `Map` objects are modelled as association lists in
insertion order with `Map.set` overwrite semantics, JS `Set` objects as
duplicate-free lists in insertion order.  The external ICU MessageFormat
parser (an npm dependency, not part of this repository) is modelled from the
specification's grammar contract, with the `ignoreTag` option that the
script passes at both call sites.
-/

/-- JSON values as produced by `JSON.parse`: strings, numbers, booleans,
null, arrays and objects (object fields in insertion order, keys distinct
in any value `JSON.parse` can actually return). -/
inductive Json where
  | str (s : String)
  | num (n : Int)
  | bool (b : Bool)
  | null
  | arr (items : List Json)
  | obj (fields : List (String × Json))

/-- The fixed namespace list (validate.ts line 23). -/
def NAMESPACES : List String := ["game", "site", "pages", "error", "faq"]

/-- The source locale (validate.ts line 22). -/
def SOURCE_LOCALE : String := "en-US"

/-- The path join used by `flatten`: `prefix ? prefix + "." + seg : seg`
(an empty JS string is falsy). -/
def joinPath (pfx seg : String) : String :=
  if pfx = "" then seg else pfx ++ "." ++ seg

mutual
/-- The per-value branch repeated in both loops of `flatten`
(validate.ts 55-76): a string is recorded under `path`, an object or an
array is recursed into, any other leaf (number, boolean, null) is dropped. -/
def flattenEntry : String → Json → List (String × String)
  | path, .str s => [(path, s)]
  | path, .arr items => flattenIdx items 0 path
  | path, .obj fields => flattenFields fields path
  | _, _ => []
/-- The array loop of `flatten` (validate.ts 55-65): child path segments are
the zero-based indices rendered in decimal. -/
def flattenIdx : List Json → Nat → String → List (String × String)
  | [], _, _ => []
  | v :: rest, i, path =>
      flattenEntry (joinPath path (toString i)) v ++ flattenIdx rest (i + 1) path
/-- The object loop of `flatten` (validate.ts 66-77). -/
def flattenFields : List (String × Json) → String → List (String × String)
  | [], _ => []
  | (k, v) :: rest, path =>
      flattenEntry (joinPath path k) v ++ flattenFields rest path
end

/-- `flatten(obj, prefix)` (validate.ts 52-80), as the list of
`result.set(path, value)` insertions in traversal order.  The top-level call
records nothing for a bare string/number/bool/null document.  `flattenMap`
below applies the JS `Map` overwrite semantics to this insertion list; the
two-step composition equals the source's nested `Map` building because
re-inserting an already-deduplicated child map entry by entry coincides with
inserting the raw child insertions in order. -/
def flatten : Json → String → List (String × String)
  | .arr items, pfx => flattenIdx items 0 pfx
  | .obj fields, pfx => flattenFields fields pfx
  | _, _ => []

/-- JS `Map.prototype.set`: overwrite the value of an existing key keeping
its original position, append a fresh key at the end. -/
def msetG {α : Type} (m : List (String × α)) (k : String) (v : α) : List (String × α) :=
  if (m.find? (fun p => p.1 == k)).isSome
  then m.map (fun p => if p.1 == k then (k, v) else p)
  else m ++ [(k, v)]

/-- Build a JS `Map` from a list of `set` insertions. -/
def mapOf {α : Type} (l : List (String × α)) : List (String × α) :=
  l.foldl (fun m kv => msetG m kv.1 kv.2) []

/-- JS `Map.prototype.get`. -/
def mget {α : Type} (m : List (String × α)) (k : String) : Option α :=
  (m.find? (fun p => p.1 == k)).map (fun p => p.2)

/-- JS `Map.prototype.has`. -/
def mhas {α : Type} (m : List (String × α)) (k : String) : Bool :=
  (mget m k).isSome

/-- The `Map` returned by the source's `flatten` (keys in first-insertion
order, each key once, late insertions winning). -/
def flattenMap (j : Json) (pfx : String) : List (String × String) :=
  mapOf (flatten j pfx)

/-- JS `String.prototype.trim`: strip leading and trailing whitespace.
(Lean's own `String.trim` is byte-position based and does not reduce in the
kernel, so the same function is written over the character list.) -/
def jsTrim (s : String) : String :=
  ⟨((s.data.dropWhile Char.isWhitespace).reverse.dropWhile Char.isWhitespace).reverse⟩

/-- JS truthiness of a parsed JSON value, for the `if (!data)` guards
(validate.ts 163 and 201): `null`, `false`, `0` and `""` are falsy. -/
def truthy : Json → Bool
  | .null => false
  | .bool b => b
  | .num n => n != 0
  | .str s => s != ""
  | .arr _ => true
  | .obj _ => true

/-- A `loadJSON` result (`none` = missing file or `JSON.parse` failure,
validate.ts 128-135) filtered through the call sites' `!data` guard. -/
def jsLoad : Option Json → Option Json
  | none => none
  | some j => if truthy j then some j else none

/-- AST node shapes of `@formatjs/icu-messageformat-parser` as consumed by
`collectPlaceholders` (TYPE.argument/number/date/time with `.value`,
TYPE.plural/select with `.value` and `.options`, TYPE.tag with `.value` and
`.children`, plus literal text). -/
inductive Element where
  | literal (s : String)
  | argument (name : String)
  | number (name : String)
  | date (name : String)
  | time (name : String)
  | plural (name : String) (options : List (String × List Element))
  | select (name : String) (options : List (String × List Element))
  | tag (name : String) (children : List Element)

def skipWs (cs : List Char) : List Char := cs.dropWhile Char.isWhitespace

def isIdChar (c : Char) : Bool := c.isAlphanum || c == '_'

def takeIdent (cs : List Char) : String × List Char :=
  ((cs.takeWhile isIdChar).asString, cs.dropWhile isIdChar)

/-- A plural/select case label: an identifier, or `=` followed by digits. -/
def takeCaseName (cs : List Char) : String × List Char :=
  match cs with
  | '=' :: rest => ("=" ++ (rest.takeWhile Char.isDigit).asString, rest.dropWhile Char.isDigit)
  | _ => takeIdent cs

/-- Characters that extend a plain-text run: everything except braces, and
except `<` when tag parsing is enabled (`ig = false`). -/
def textChar (ig : Bool) (c : Char) : Bool :=
  c != '{' && c != '}' && (ig || c != '<')

mutual
/-- Modelled from the spec: the external ICU MessageFormat parser
(§4.2/§6 of the design: plain text, `\x7bname\x7d` arguments,
`number`/`date`/`time` typed arguments, `plural`/`select` constructs with a
mandatory `other` case whose bodies are sub-messages, and paired or
self-closing tag markers).  `ig` models the library's `ignoreTag` option
(passed as `true` at both call sites in validate.ts, lines 111 and 121):
when set, `<` is ordinary text and no tag node is ever produced.  `fuel`
only bounds recursion depth; `parseMsg` supplies enough for any input.
`stopBrace` is set inside a plural/select case body (stop before `\x7d`);
`tagStop` is set inside tag children (stop before the closing tag). -/
def parseElems : Nat → Bool → List Char → Bool → Option String →
    Except String (List Element × List Char)
  | 0, _, _, _, _ => .error "message too complex"
  | fuel + 1, ig, cs, stopBrace, tagStop =>
    match cs with
    | [] =>
      if stopBrace then .error "expected a closing brace before end of message"
      else if tagStop.isSome then .error "unclosed tag before end of message"
      else .ok ([], [])
    | '}' :: rest =>
      if stopBrace then .ok ([], '}' :: rest)
      else .error "unmatched closing brace"
    | '{' :: rest =>
      let (name, r1) := takeIdent (skipWs rest)
      if name = "" then .error "malformed argument: expected a name"
      else
        match skipWs r1 with
        | '}' :: r2 => parseSeqCont fuel ig (.argument name) r2 stopBrace tagStop
        | ',' :: r2 =>
          let (ty, r3) := takeIdent (skipWs r2)
          match skipWs r3 with
          | '}' :: r4 =>
            if ty = "number" then parseSeqCont fuel ig (.number name) r4 stopBrace tagStop
            else if ty = "date" then parseSeqCont fuel ig (.date name) r4 stopBrace tagStop
            else if ty = "time" then parseSeqCont fuel ig (.time name) r4 stopBrace tagStop
            else .error ("unsupported argument type: " ++ ty)
          | ',' :: r4 =>
            if ty = "plural" || ty = "select" then
              match parseOptions fuel ig r4 with
              | .error e => .error e
              | .ok (opts, r5) =>
                match r5 with
                | '}' :: r6 =>
                  if opts.any (fun o => o.1 == "other") then
                    parseSeqCont fuel ig
                      (if ty = "plural" then .plural name opts else .select name opts)
                      r6 stopBrace tagStop
                  else .error "plural or select requires an other case"
                | _ => .error "expected a closing brace after the cases"
            else .error ("unsupported argument type: " ++ ty)
          | _ => .error "malformed argument"
        | _ => .error "malformed argument: expected a closing brace or a comma"
    | '<' :: rest =>
      if ig then
        parseSeqCont fuel ig (.literal (('<' :: rest).takeWhile (textChar ig)).asString)
          (('<' :: rest).dropWhile (textChar ig)) stopBrace tagStop
      else
        match rest with
        | '/' :: _ =>
          if tagStop.isSome then .ok ([], '<' :: rest)
          else .error "unmatched closing tag"
        | _ =>
          let (name, r1) := takeIdent rest
          if name = "" then .error "malformed tag: expected a name"
          else
            match r1 with
            | '/' :: '>' :: r2 => parseSeqCont fuel ig (.tag name []) r2 stopBrace tagStop
            | '>' :: r2 =>
              match parseElems fuel ig r2 false (some name) with
              | .error e => .error e
              | .ok (children, r3) =>
                match r3 with
                | '<' :: '/' :: r4 =>
                  let (cname, r5) := takeIdent r4
                  match r5 with
                  | '>' :: r6 =>
                    if cname = name then
                      parseSeqCont fuel ig (.tag name children) r6 stopBrace tagStop
                    else .error "mismatched closing tag"
                  | _ => .error "malformed closing tag"
                | _ => .error "unclosed tag"
            | _ => .error "malformed tag"
    | c :: rest =>
      parseSeqCont fuel ig (.literal ((c :: rest).takeWhile (textChar ig)).asString)
        ((c :: rest).dropWhile (textChar ig)) stopBrace tagStop
/-- Append one parsed element and continue with the rest of the sequence. -/
def parseSeqCont : Nat → Bool → Element → List Char → Bool → Option String →
    Except String (List Element × List Char)
  | 0, _, _, _, _, _ => .error "message too complex"
  | fuel + 1, ig, el, cs, stopBrace, tagStop =>
    match parseElems fuel ig cs stopBrace tagStop with
    | .error e => .error e
    | .ok (els, r) => .ok (el :: els, r)
/-- The case list of a plural/select construct; stops before the construct's
closing brace, which the caller consumes. -/
def parseOptions : Nat → Bool → List Char →
    Except String (List (String × List Element) × List Char)
  | 0, _, _ => .error "message too complex"
  | fuel + 1, ig, cs =>
    match skipWs cs with
    | '}' :: rest => .ok ([], '}' :: rest)
    | cs1 =>
      let (cn, r1) := takeCaseName cs1
      if cn = "" then .error "expected a case name or a closing brace"
      else
        match skipWs r1 with
        | '{' :: r2 =>
          match parseElems fuel ig r2 true none with
          | .error e => .error e
          | .ok (sub, r3) =>
            match r3 with
            | '}' :: r4 =>
              match parseOptions fuel ig r4 with
              | .error e => .error e
              | .ok (opts, r5) => .ok ((cn, sub) :: opts, r5)
            | _ => .error "expected a closing brace after a case body"
        | _ => .error "expected an opening brace after a case name"
end

/-- `parse(message, { ignoreTag: ig })`: parse a whole message. -/
def parseMsg (ig : Bool) (s : String) : Except String (List Element) :=
  match parseElems (4 * s.data.length + 16) ig s.data false none with
  | .ok (els, []) => .ok els
  | .ok _ => .error "unexpected trailing content"
  | .error e => .error e

/-- JS `Set.prototype.add`: append if absent. -/
def addSet (out : List String) (x : String) : List String :=
  if x ∈ out then out else out ++ [x]

mutual
/-- The `switch (node.type)` body of `collectPlaceholders` (validate.ts
84-104): argument, number, date and time nodes add their value; select and
plural nodes add their value and recurse into every option body
(`Object.values(node.options)` in insertion order); tag nodes add
`"<" + value + ">"` and recurse into their children; literal text adds
nothing. -/
def collectElem : Element → List String → List String
  | .literal _, out => out
  | .argument v, out => addSet out v
  | .number v, out => addSet out v
  | .date v, out => addSet out v
  | .time v, out => addSet out v
  | .select v opts, out => collectOptions opts (addSet out v)
  | .plural v opts, out => collectOptions opts (addSet out v)
  | .tag v children, out => collectPlaceholders children (addSet out ("<" ++ v ++ ">"))
/-- `collectPlaceholders(nodes, out)` (validate.ts 83-105): fold the switch
body over the node list, threading the JS `Set` accumulator. -/
def collectPlaceholders : List Element → List String → List String
  | [], out => out
  | el :: rest, out => collectPlaceholders rest (collectElem el out)
/-- The option loop of the select/plural case of `collectPlaceholders`. -/
def collectOptions : List (String × List Element) → List String → List String
  | [], out => out
  | (_, sub) :: rest, out => collectOptions rest (collectPlaceholders sub out)
end

/-- `extractPlaceholders(message)` (validate.ts 108-116): parse with
`ignoreTag: true`, collect into a fresh set, empty set on a parse error. -/
def extractPlaceholders (message : String) : List String :=
  match parseMsg true message with
  | .ok ast => collectPlaceholders ast []
  | .error _ => []

/-- `validateICU(message)` (validate.ts 119-126): the parser's error message,
or `none` when the message parses (also called with `ignoreTag: true`). -/
def validateICU (message : String) : Option String :=
  match parseMsg true message with
  | .ok _ => none
  | .error e => some e

/-- Issue severity (validate.ts 39). -/
inductive IssueType where
  | error
  | warning
deriving DecidableEq, BEq

/-- A single finding (validate.ts 38-44); `ns` is the source's `namespace`
field. -/
structure Issue where
  type : IssueType
  locale : String
  ns : String
  key : String
  message : String
deriving DecidableEq

/-- ANSI wrapping used by the color helpers (validate.ts 29-34): identity
in CI, escape-coded otherwise. -/
def color (ci : Bool) (code s : String) : String :=
  if ci then s else code ++ s ++ "\x1b[0m"

def red (ci : Bool) (s : String) : String := color ci "\x1b[31m" s
def yellow (ci : Bool) (s : String) : String := color ci "\x1b[33m" s
def green (ci : Bool) (s : String) : String := color ci "\x1b[32m" s
def cyan (ci : Bool) (s : String) : String := color ci "\x1b[36m" s
def bold (ci : Bool) (s : String) : String := color ci "\x1b[1m" s
def dim (ci : Bool) (s : String) : String := color ci "\x1b[2m" s

/-- `ghAnnotate` (validate.ts 146-150): a GitHub annotation line, emitted
only in CI. -/
def ghAnnotate (ci : Bool) (level file msg : String) : List String :=
  if ci then ["::" ++ level ++ " file=" ++ file ++ "::" ++ msg] else []

/-- The annotation file path used at every call site. -/
def fileOf (locale ns : String) : String :=
  "locales/" ++ locale ++ "/" ++ ns ++ ".json"

/-- Result of checking one source key (issues and annotations it emitted,
and its increment to `translated`). -/
structure KeyResult where
  issues : List Issue
  annots : List String
  translated : Nat
deriving DecidableEq

/-- The per-source-key body of the target loop (validate.ts 230-299).
Note `translated++` (line 244) runs as soon as the key is present in the
target, before the empty-after-trim check. -/
def checkKey (ci : Bool) (locale ns key sourceValue : String)
    (targetKeys : List (String × String)) : KeyResult :=
  match mget targetKeys key with
  | none => ⟨[⟨.warning, locale, ns, key, "Missing translation"⟩], [], 0⟩
  | some targetValue =>
    if jsTrim targetValue = "" then
      ⟨[⟨.warning, locale, ns, key, "Empty value"⟩], [], 1⟩
    else
      match validateICU targetValue with
      | some icuErr =>
        ⟨[⟨.error, locale, ns, key, "Invalid ICU: " ++ icuErr⟩],
         ghAnnotate ci "error" (fileOf locale ns) (key ++ ": invalid ICU syntax"), 1⟩
      | none =>
        let srcPH := extractPlaceholders sourceValue
        let tgtPH := extractPlaceholders targetValue
        let missingPH := srcPH.filter (fun ph => !(tgtPH.contains ph))
        let unknownPH := tgtPH.filter (fun ph => !(srcPH.contains ph))
        ⟨missingPH.map (fun ph => ⟨.error, locale, ns, key, "Missing placeholder: " ++ ph⟩) ++
           unknownPH.map (fun ph => ⟨.error, locale, ns, key, "Unknown placeholder: " ++ ph⟩),
         missingPH.flatMap (fun ph =>
             ghAnnotate ci "error" (fileOf locale ns) (key ++ ": missing placeholder " ++ ph)) ++
           unknownPH.flatMap (fun ph =>
             ghAnnotate ci "error" (fileOf locale ns) (key ++ ": unknown placeholder " ++ ph)),
         1⟩

/-- Result of one (locale, namespace) pair, or of a whole locale. -/
structure NsResult where
  issues : List Issue
  annots : List String
  total : Nat
  translated : Nat
deriving DecidableEq

/-- The `for (const [key, sourceValue] of sourceKeys)` loop of the target
phase (validate.ts 230-299), with the issue list, annotation output and
`translated` counter threaded as the accumulator. -/
def checkKeys (ci : Bool) (locale ns : String) (src tgt : List (String × String))
    (acc : KeyResult) : KeyResult :=
  match src with
  | [] => acc
  | kv :: rest =>
    let r := checkKey ci locale ns kv.1 kv.2 tgt
    checkKeys ci locale ns rest tgt
      ⟨acc.issues ++ r.issues, acc.annots ++ r.annots, acc.translated + r.translated⟩

/-- One (locale, namespace) iteration of the target loop (validate.ts
196-300): `total` grows by the source key count before the load check; a
falsy/failed load yields the single file-level error; otherwise extra-key
errors are emitted first, then every source key is checked in order. -/
def processNS (ci : Bool) (sourceKeys : List (String × String)) (locale ns : String)
    (data : Option Json) : NsResult :=
  let total := sourceKeys.length
  match jsLoad data with
  | none =>
    ⟨[⟨.error, locale, ns, "*", "File missing or invalid JSON"⟩],
     ghAnnotate ci "error" (fileOf locale ns) "File missing or invalid JSON", total, 0⟩
  | some j =>
    let targetKeys := flattenMap j ""
    let extraKeys := targetKeys.filter (fun kv => !(mhas sourceKeys kv.1))
    let extraIssues : List Issue :=
      extraKeys.map (fun kv => ⟨.error, locale, ns, kv.1, "Extra key not in source (en-US)"⟩)
    let extraAnnots :=
      extraKeys.flatMap (fun kv =>
        ghAnnotate ci "error" (fileOf locale ns) ("Extra key: " ++ kv.1))
    let keyRes := checkKeys ci locale ns sourceKeys targetKeys ⟨[], [], 0⟩
    ⟨extraIssues ++ keyRes.issues, extraAnnots ++ keyRes.annots, total, keyRes.translated⟩

/-- The `for (const ns of NAMESPACES)` loop of one target locale
(validate.ts 196-300), accumulating issues, annotations, `total` and
`translated`. -/
def runNamespaces (ci : Bool) (load : String → String → Option Json)
    (sourceData : List (String × List (String × String))) (locale : String) :
    List String → NsResult → NsResult
  | [], acc => acc
  | ns :: rest, acc =>
    let src := (mget sourceData ns).getD []
    let r := processNS ci src locale ns (load locale ns)
    runNamespaces ci load sourceData locale rest
      ⟨acc.issues ++ r.issues, acc.annots ++ r.annots,
       acc.total + r.total, acc.translated + r.translated⟩

/-- The per-target-locale loop body (validate.ts 192-303): run the five
fixed namespaces, starting from `total = 0`, `translated = 0`. -/
def runLocale (ci : Bool) (load : String → String → Option Json)
    (sourceData : List (String × List (String × String))) (locale : String) : NsResult :=
  runNamespaces ci load sourceData locale NAMESPACES ⟨[], [], 0, 0⟩

/-- The source-locale phase (validate.ts 158-182): load and flatten each
namespace in order, `process.exit(1)` (modelled as `.error ns`) on the first
namespace whose load fails the `!data` guard, otherwise ICU-validate every
flattened source value, collecting error issues. -/
def sourcePhase (load : String → String → Option Json) :
    List String → Except String (List (String × List (String × String)) × List Issue)
  | [] => .ok ([], [])
  | ns :: rest =>
    match jsLoad (load SOURCE_LOCALE ns) with
    | none => .error ns
    | some j =>
      let flat := flattenMap j ""
      let icuIssues := flat.filterMap (fun kv =>
        (validateICU kv.2).map (fun err =>
          (⟨.error, SOURCE_LOCALE, ns, kv.1, "Invalid ICU in source: " ++ err⟩ : Issue)))
      match sourcePhase load rest with
      | .error e => .error e
      | .ok (sd, issues) => .ok ((ns, flat) :: sd, icuIssues ++ issues)

/-- Pad with spaces on the right to the given length (`String.padEnd`). -/
def padEnd (s : String) (n : Nat) : String :=
  s ++ ⟨List.replicate (n - s.length) ' '⟩

/-- Pad with spaces on the left to the given length (`String.padStart`). -/
def padStart (s : String) (n : Nat) : String :=
  (⟨List.replicate (n - s.length) ' '⟩ : String) ++ s

/-- `String.prototype.repeat`. -/
def strRepeat (s : String) (n : Nat) : String :=
  String.join (List.replicate n s)

/-- `total > 0 ? Math.round((translated / total) * 100) : 0`
(validate.ts 314).  The JS number division is modelled as exact rational
arithmetic and `Math.round` as `round` (half-up, `⌊x + 1/2⌋`). -/
def coveragePct (total translated : Nat) : Int :=
  if 0 < total then round ((translated : ℚ) / (total : ℚ) * 100) else 0

/-- The progress bar (validate.ts 315-316). -/
def coverageBar (pct : Int) : String :=
  let filled := (round ((pct : ℚ) / 5)).toNat
  strRepeat "█" filled ++ strRepeat "░" (20 - filled)

/-- One coverage table row (validate.ts 313-320). -/
def coverageRow (ci : Bool) (locale : String) (total translated : Nat) : String :=
  let pct := coveragePct total translated
  let colorFn := if pct == 100 then green else if pct ≥ 80 then yellow else red
  "  " ++ cyan ci (padEnd locale 10) ++ " " ++
    colorFn ci (padStart (toString pct ++ "%") 5) ++ "   " ++
    dim ci (coverageBar pct) ++ " " ++ dim ci (toString translated ++ "/" ++ toString total)

/-- The final report (validate.ts 305-353), one list entry per
`console.log` call. -/
def renderReport (ci : Bool) (coverage : List (String × Nat × Nat))
    (issues : List Issue) : List String :=
  let errors := issues.filter (fun i => i.type == IssueType.error)
  let warnings := issues.filter (fun i => i.type == IssueType.warning)
  let header :=
    [bold ci "\n  Translation Coverage\n",
     "  " ++ padEnd "Locale" 10 ++ " " ++ padEnd "Progress" 8 ++ " " ++
       padEnd "Bar" 22 ++ " " ++ "Keys",
     "  " ++ strRepeat "-" 10 ++ " " ++ strRepeat "-" 8 ++ " " ++
       strRepeat "-" 22 ++ " " ++ strRepeat "-" 12]
  let rows := coverage.map (fun c => coverageRow ci c.1 c.2.1 c.2.2)
  let errorLines :=
    if errors.length > 0 then
      bold ci (red ci ("\n  " ++ toString errors.length ++ " error(s):\n")) ::
        errors.flatMap (fun i =>
          [red ci ("  x " ++ i.locale ++ "/" ++ i.ns ++ ".json : " ++ i.key),
           "    " ++ i.message ++ "\n"])
    else []
  let missing := warnings.filter (fun w => w.message == "Missing translation")
  let emptyWs := warnings.filter (fun w => w.message == "Empty value")
  let warnLines :=
    if warnings.length > 0 then
      [bold ci (yellow ci ("\n  " ++ toString warnings.length ++ " warning(s):\n"))] ++
      (if missing.length > 0 then
        yellow ci ("  " ++ toString missing.length ++ " missing translation(s)") ::
          ((missing.take 10).map (fun w =>
              dim ci ("    " ++ w.locale ++ "/" ++ w.ns ++ ".json : " ++ w.key)) ++
           (if missing.length > 10 then
              [dim ci ("    ... and " ++ toString (missing.length - 10) ++ " more")]
            else []))
       else []) ++
      (if emptyWs.length > 0 then
        [yellow ci ("  " ++ toString emptyWs.length ++ " empty value(s)")]
       else [])
    else []
  let passLine :=
    if errors.length == 0 then [green ci (bold ci "\n  All checks passed.\n")] else []
  header ++ rows ++ errorLines ++ warnLines ++ passLine

/-- The `for (const locale of locales)` loop (validate.ts 192-303),
accumulating issues, annotation output, and the coverage `Map`
(`coverage.set(locale, { total, translated })`, line 302). -/
def runTargets (ci : Bool) (load : String → String → Option Json)
    (sourceData : List (String × List (String × String))) :
    List String → List Issue × List String × List (String × Nat × Nat) →
    List Issue × List String × List (String × Nat × Nat)
  | [], acc => acc
  | locale :: rest, acc =>
    let r := runLocale ci load sourceData locale
    runTargets ci load sourceData rest
      (acc.1 ++ r.issues, acc.2.1 ++ r.annots, msetG acc.2.2 locale (r.total, r.translated))

/-- The three ways `main` can reach `process.exit` (validate.ts):
`fatalSource` is the exit(1) in the source loop (line 165), before any
target locale is compared; `noTargets` is the exit(0) when no target
locales are discovered (line 188); `completed` is the final
`exit(errors.length > 0 ? 1 : 0)` (line 355). -/
inductive RunOutcome where
  | fatalSource (ns : String) (output : List String)
  | noTargets (issues : List Issue) (output : List String)
  | completed (issues : List Issue) (coverage : List (String × Nat × Nat))
      (output : List String) (exit : Nat)

/-- The process exit status of an outcome. -/
def RunOutcome.exitCode : RunOutcome → Nat
  | .fatalSource _ _ => 1
  | .noTargets _ _ => 0
  | .completed _ _ _ e => e

/-- The issues accumulated by the run (none are reported on the fatal
source path, which aborts at once). -/
def RunOutcome.issues : RunOutcome → List Issue
  | .fatalSource _ _ => []
  | .noTargets is _ => is
  | .completed is _ _ _ => is

/-- The coverage counters of the run (populated only when the target loop
ran). -/
def RunOutcome.coverage : RunOutcome → List (String × Nat × Nat)
  | .completed _ cov _ _ => cov
  | _ => []

/-- Whether the run aborted in the source-locale phase. -/
def RunOutcome.isFatal : RunOutcome → Bool
  | .fatalSource _ _ => true
  | _ => false

/-- `main()` (validate.ts 154-356).  `load locale ns` models the
`loadJSON` result for `locales/<locale>/<ns>.json`; `targets` models
`discoverLocales()` (the sorted directory listing minus the source locale);
`ci` models `isCI`.  Coverage is a JS `Map` keyed by locale; annotations
are emitted during processing, the report afterwards. -/
def runMain (load : String → String → Option Json) (targets : List String)
    (ci : Bool) : RunOutcome :=
  match sourcePhase load NAMESPACES with
  | .error ns =>
    .fatalSource ns [red ci ("FATAL: cannot load " ++ SOURCE_LOCALE ++ "/" ++ ns ++ ".json")]
  | .ok (sourceData, sourceIssues) =>
    if targets.isEmpty then
      .noTargets sourceIssues [yellow ci "No target locales found."]
    else
      let folded := runTargets ci load sourceData targets ([], [], [])
      let issues := sourceIssues ++ folded.1
      let errors := issues.filter (fun i => i.type == IssueType.error)
      .completed issues folded.2.2 (folded.2.1 ++ renderReport ci folded.2.2 issues)
        (if errors.length > 0 then 1 else 0)

/-
Auxiliary definitions used by the statements below.
-/

/-- The key column of a flattening (the `Map`'s key set, in order). -/
def keyList (l : List (String × String)) : List String := l.map Prod.fst

/-- The flattening of one source-locale namespace file as `sourceData`
stores it: the flattened `Map` when the load passes the `!data` guard. -/
def sourceFlat (load : String → String → Option Json) (ns : String) :
    List (String × String) :=
  match jsLoad (load SOURCE_LOCALE ns) with
  | some j => flattenMap j ""
  | none => []

/-- The number of source keys of one namespace that are present in the
target document's flattening (0 when the target fails to load). -/
def countPresent (src : List (String × String)) (data : Option Json) : Nat :=
  match jsLoad data with
  | some j => (src.filter (fun kv => mhas (flattenMap j "") kv.1)).length
  | none => 0

/-- What the per-locale `translated` counter actually accumulates:
present source keys, summed over the five namespaces. -/
def translatedOf (load : String → String → Option Json) (locale : String) : Nat :=
  (NAMESPACES.map (fun ns => countPresent (sourceFlat load ns) (load locale ns))).sum

/-- Following the claim's words: the number of source keys of one namespace
whose target value is present and non-empty after trimming surrounding
whitespace. -/
def countPresentNonempty (src : List (String × String)) (data : Option Json) : Nat :=
  match jsLoad data with
  | some j => (src.filter (fun kv =>
      match mget (flattenMap j "") kv.1 with
      | some tv => !(jsTrim tv == "")
      | none => false)).length
  | none => 0

/-- Following the claim's words: the per-locale count of source keys with a
present, non-empty (after trimming) target value. -/
def nonemptyTranslatedOf (load : String → String → Option Json) (locale : String) : Nat :=
  (NAMESPACES.map (fun ns =>
    countPresentNonempty (sourceFlat load ns) (load locale ns))).sum

/-- An object key that cannot collide after joining: nonempty and free of
the `.` separator. -/
def goodKey (k : String) : Prop := k ≠ "" ∧ '.' ∉ k.data

/-- Well-formed JSON documents: at every object, the keys are pairwise
distinct (as for any value `JSON.parse` returns), nonempty, and contain no
`.` separator. -/
inductive WF : Json → Prop where
  | str (s : String) : WF (.str s)
  | num (n : Int) : WF (.num n)
  | bool (b : Bool) : WF (.bool b)
  | null : WF .null
  | arr (items : List Json) : (∀ v ∈ items, WF v) → WF (.arr items)
  | obj (fields : List (String × Json)) :
      (fields.map Prod.fst).Nodup →
      (∀ kv ∈ fields, goodKey kv.1) →
      (∀ kv ∈ fields, WF kv.2) → WF (.obj fields)

mutual
/-- String-leaf count of one value in entry position (mirrors
`flattenEntry`). -/
def entryLeafCount : Json → Nat
  | .str _ => 1
  | .arr items => itemsLeafCount items
  | .obj fields => fieldsLeafCount fields
  | _ => 0
/-- String-leaf count of an array's elements (mirrors `flattenIdx`). -/
def itemsLeafCount : List Json → Nat
  | [] => 0
  | v :: rest => entryLeafCount v + itemsLeafCount rest
/-- String-leaf count of an object's fields (mirrors `flattenFields`). -/
def fieldsLeafCount : List (String × Json) → Nat
  | [] => 0
  | (_, v) :: rest => entryLeafCount v + fieldsLeafCount rest
end

/-- String leaves of a document that sit inside an object or an array — the
leaves `flatten` records (a bare top-level string is not recorded). -/
def leafCount : Json → Nat
  | .arr items => itemsLeafCount items
  | .obj fields => fieldsLeafCount fields
  | _ => 0

/-- The numeric value of a decimal digit character. -/
def digitVal (c : Char) : Nat := c.toNat - 48

/-- Decode a decimal digit string (used to invert `Nat.repr`). -/
def decodeDigits (l : List Char) : Nat :=
  l.foldl (fun a c => a * 10 + digitVal c) 0

/-- The separator `joinPath` inserts after a nonempty prefix. -/
def dotPre (p : String) : List Char := if p = "" then [] else ['.']

/-- A character list that is empty or starts with the `.` separator — the
shape of everything a key path can carry after one of its segments. -/
def sepHeaded (t : List Char) : Prop := t = [] ∨ ∃ u, t = '.' :: u

/-- A fixture: every `loadJSON` call fails (an empty locales directory). -/
def noSourceLoad : String → String → Option Json := fun _ _ => none

/-- A fixture: the source locale parses but `game.json` contains a message
with invalid ICU syntax (a lone `\x7b`), and no target locales exist. -/
def badSourceLoad : String → String → Option Json := fun locale ns =>
  if locale = "en-US" then
    if ns = "game" then some (.obj [("k", .str "\x7b")])
    else some (.obj [])
  else none

/-- A fixture: the source `game.json` has one key `"a"`, and the Korean
target translates it with a whitespace-only value. -/
def emptyValueLoad : String → String → Option Json := fun locale ns =>
  if locale = "en-US" then
    if ns = "game" then some (.obj [("a", .str "hello")])
    else some (.obj [])
  else if locale = "ko-KR" then
    if ns = "game" then some (.obj [("a", .str "  ")])
    else some (.obj [])
  else none

/-
Decimal rendering of array indices: the characters of `toString i` are
digits (so never the `.` separator), the rendering is nonempty, and it is
injective.
-/

theorem toDigitsCore_append (fuel : Nat) : ∀ (n : Nat) (acc : List Char),
    Nat.toDigitsCore 10 fuel n acc = Nat.toDigitsCore 10 fuel n [] ++ acc := by
  induction fuel with
  | zero => intro n acc; rfl
  | succ f ih =>
    intro n acc
    simp only [Nat.toDigitsCore]
    by_cases h : n / 10 = 0
    · simp [h]
    · rw [if_neg h, if_neg h, ih (n / 10) (Nat.digitChar (n % 10) :: acc),
        ih (n / 10) [Nat.digitChar (n % 10)]]
      simp

theorem digitChar_isDigit (d : Nat) (h : d < 10) : (Nat.digitChar d).isDigit = true := by
  interval_cases d <;> decide

theorem digitVal_digitChar (d : Nat) (h : d < 10) : digitVal (Nat.digitChar d) = d := by
  interval_cases d <;> decide

theorem decodeDigits_append (l : List Char) (c : Char) :
    decodeDigits (l ++ [c]) = decodeDigits l * 10 + digitVal c := by
  unfold decodeDigits
  rw [List.foldl_append]
  rfl

theorem decodeDigits_toDigitsCore (fuel : Nat) :
    ∀ n, n < 10 ^ fuel → decodeDigits (Nat.toDigitsCore 10 fuel n []) = n := by
  induction fuel with
  | zero =>
    intro n h
    have hn : n = 0 := by simpa using h
    subst hn
    rfl
  | succ f ih =>
    intro n h
    simp only [Nat.toDigitsCore]
    by_cases h10 : n / 10 = 0
    · rw [if_pos h10]
      show decodeDigits [Nat.digitChar (n % 10)] = n
      unfold decodeDigits
      simp only [List.foldl_cons, List.foldl_nil, Nat.zero_mul, Nat.zero_add]
      rw [digitVal_digitChar (n % 10) (by omega)]
      omega
    · have hdiv : n / 10 < 10 ^ f := by
        rw [Nat.div_lt_iff_lt_mul (by norm_num)]
        calc n < 10 ^ (f + 1) := h
        _ = 10 ^ f * 10 := pow_succ 10 f
      rw [if_neg h10, toDigitsCore_append, decodeDigits_append,
        ih (n / 10) hdiv, digitVal_digitChar (n % 10) (by omega)]
      omega

theorem toDigitsCore_digits (fuel : Nat) :
    ∀ n, ∀ c ∈ Nat.toDigitsCore 10 fuel n [], c.isDigit = true := by
  induction fuel with
  | zero => intro n c hc; cases hc
  | succ f ih =>
    intro n c hc
    simp only [Nat.toDigitsCore] at hc
    by_cases h10 : n / 10 = 0
    · rw [if_pos h10] at hc
      rw [List.mem_singleton] at hc
      subst hc
      exact digitChar_isDigit (n % 10) (by omega)
    · rw [if_neg h10, toDigitsCore_append] at hc
      rcases List.mem_append.mp hc with h | h
      · exact ih (n / 10) c h
      · rw [List.mem_singleton] at h
        subst h
        exact digitChar_isDigit (n % 10) (by omega)

theorem toDigits_ne_nil (n : Nat) : Nat.toDigits 10 n ≠ [] := by
  unfold Nat.toDigits
  simp only [Nat.toDigitsCore]
  by_cases h10 : n / 10 = 0
  · simp [h10]
  · rw [if_neg h10, toDigitsCore_append]
    simp

theorem lt_ten_pow (n : Nat) : n < 10 ^ (n + 1) := by
  induction n with
  | zero => norm_num
  | succ m ih =>
    have h1 : 10 ^ (m + 1 + 1) = 10 ^ (m + 1) * 10 := pow_succ 10 (m + 1)
    omega

theorem str_ext {a b : String} (h : a.data = b.data) : a = b := by
  cases a
  cases b
  exact congrArg String.mk h

theorem data_ne_nil {s : String} (h : s ≠ "") : s.data ≠ [] :=
  fun hd => h (str_ext hd)

theorem toString_nat_data (n : Nat) :
    (toString n).data = Nat.toDigitsCore 10 (n + 1) n [] := rfl

theorem toString_nat_not_dot (n : Nat) : '.' ∉ (toString n).data := by
  intro h
  rw [toString_nat_data] at h
  have := toDigitsCore_digits (n + 1) n '.' h
  exact absurd this (by decide)

theorem toString_nat_ne_empty (n : Nat) : toString n ≠ "" := by
  intro h
  exact toDigits_ne_nil n (congrArg String.data h)

theorem toString_nat_inj {m n : Nat} (h : toString m = toString n) : m = n := by
  have hd : (toString m).data = (toString n).data := congrArg String.data h
  rw [toString_nat_data, toString_nat_data] at hd
  have hm := decodeDigits_toDigitsCore (m + 1) m (lt_ten_pow m)
  have hn := decodeDigits_toDigitsCore (n + 1) n (lt_ten_pow n)
  rw [← hm, ← hn, hd]

/-
The prefix-free join: a separator-free segment followed by an empty or
`.`-headed remainder determines both parts.
-/

theorem seg_prefix_eq : ∀ (a b r1 r2 : List Char),
    '.' ∉ a → '.' ∉ b → sepHeaded r1 → sepHeaded r2 →
    a ++ r1 = b ++ r2 → a = b ∧ r1 = r2 := by
  intro a
  induction a with
  | nil =>
    intro b r1 r2 _ hb h1 _ heq
    rw [List.nil_append] at heq
    cases b with
    | nil => exact ⟨rfl, by simpa using heq⟩
    | cons c bs =>
      exfalso
      rcases h1 with h | ⟨u, h⟩
      · subst h
        cases heq
      · subst h
        rw [List.cons_append] at heq
        injection heq with hc _
        exact hb (hc ▸ List.mem_cons_self c bs)
  | cons x xs ih =>
    intro b r1 r2 ha hb h1 h2 heq
    cases b with
    | nil =>
      exfalso
      rw [List.nil_append] at heq
      rcases h2 with h | ⟨u, h⟩
      · subst h
        cases heq
      · subst h
        rw [List.cons_append] at heq
        injection heq with hc _
        exact ha (hc ▸ List.mem_cons_self x xs)
    | cons y bs =>
      rw [List.cons_append, List.cons_append] at heq
      injection heq with hxy htail
      subst hxy
      obtain ⟨h1', h2'⟩ := ih bs r1 r2
        (fun h => ha (List.mem_cons_of_mem _ h))
        (fun h => hb (List.mem_cons_of_mem _ h)) h1 h2 htail
      exact ⟨by rw [h1'], h2'⟩

/-
Facts about `joinPath`.
-/

theorem joinPath_data (p s : String) :
    (joinPath p s).data = p.data ++ dotPre p ++ s.data := by
  unfold joinPath dotPre
  by_cases hp : p = ""
  · rw [if_pos hp, if_pos hp]
    subst hp
    simp
  · rw [if_neg hp, if_neg hp, String.data_append, String.data_append]

theorem joinPath_ne_empty (p s : String) (h : p ≠ "" ∨ s ≠ "") :
    joinPath p s ≠ "" := by
  intro he
  have hd := congrArg String.data he
  rw [joinPath_data] at hd
  simp only [List.append_eq_nil] at hd
  rcases h with hp | hs
  · exact data_ne_nil hp hd.1.1
  · exact data_ne_nil hs hd.2

theorem path_block_eq (path s1 s2 : String) (t1 t2 : List Char)
    (h1 : '.' ∉ s1.data) (h2 : '.' ∉ s2.data)
    (hh1 : sepHeaded t1) (hh2 : sepHeaded t2)
    (heq : (joinPath path s1).data ++ t1 = (joinPath path s2).data ++ t2) :
    s1 = s2 ∧ t1 = t2 := by
  rw [joinPath_data, joinPath_data] at heq
  simp only [List.append_assoc] at heq
  have h := List.append_cancel_left (List.append_cancel_left heq)
  obtain ⟨hs, ht⟩ := seg_prefix_eq s1.data s2.data t1 t2 h1 h2 hh1 hh2 h
  exact ⟨str_ext hs, ht⟩

theorem keyList_append (a b : List (String × String)) :
    keyList (a ++ b) = keyList a ++ keyList b := List.map_append _ a b

/-
Lemmas about the per-key check and the per-namespace comparator.
-/

theorem checkKey_absent (ci : Bool) (locale ns key v : String)
    (tgt : List (String × String)) (h : mget tgt key = none) :
    checkKey ci locale ns key v tgt =
      ⟨[⟨.warning, locale, ns, key, "Missing translation"⟩], [], 0⟩ := by
  unfold checkKey
  rw [h]

theorem checkKey_translated (ci : Bool) (locale ns key v : String)
    (tgt : List (String × String)) :
    (checkKey ci locale ns key v tgt).translated = if mhas tgt key then 1 else 0 := by
  unfold checkKey mhas
  rcases h : mget tgt key with _ | tv
  · simp [h]
  · simp only [h, Option.isSome_some, if_true]
    split
    · rfl
    · rcases validateICU tv with _ | e <;> rfl

theorem checkKey_issues_ci (ci : Bool) (locale ns key v : String)
    (tgt : List (String × String)) :
    (checkKey ci locale ns key v tgt).issues = (checkKey false locale ns key v tgt).issues := by
  unfold checkKey
  rcases mget tgt key with _ | tv
  · rfl
  · dsimp only
    split
    · rfl
    · rcases validateICU tv with _ | e <;> rfl

theorem checkKey_key (ci : Bool) (locale ns key v : String)
    (tgt : List (String × String)) :
    ∀ i ∈ (checkKey ci locale ns key v tgt).issues, i.key = key := by
  unfold checkKey
  rcases mget tgt key with _ | tv
  · intro i hi
    simp only [List.mem_singleton] at hi
    subst hi; rfl
  · dsimp only
    split
    · intro i hi
      simp only [List.mem_singleton] at hi
      subst hi; rfl
    · rcases validateICU tv with _ | e
      · intro i hi
        simp only [List.mem_append, List.mem_map] at hi
        rcases hi with ⟨ph, _, he⟩ | ⟨ph, _, he⟩ <;> (subst he; rfl)
      · intro i hi
        simp only [List.mem_singleton] at hi
        subst hi; rfl

theorem checkKeys_acc (ci : Bool) (locale ns : String) (src tgt : List (String × String))
    (acc : KeyResult) :
    checkKeys ci locale ns src tgt acc =
      ⟨acc.issues ++ (checkKeys ci locale ns src tgt ⟨[], [], 0⟩).issues,
       acc.annots ++ (checkKeys ci locale ns src tgt ⟨[], [], 0⟩).annots,
       acc.translated + (checkKeys ci locale ns src tgt ⟨[], [], 0⟩).translated⟩ := by
  induction src generalizing acc with
  | nil => simp [checkKeys]
  | cons kv rest ih =>
    rw [checkKeys, checkKeys]
    dsimp only
    rw [ih, ih ⟨[] ++ _, [] ++ _, 0 + _⟩]
    simp [List.append_assoc, Nat.add_assoc]

theorem checkKeys_issues (ci : Bool) (locale ns : String) (src tgt : List (String × String)) :
    (checkKeys ci locale ns src tgt ⟨[], [], 0⟩).issues =
      src.flatMap (fun kv => (checkKey ci locale ns kv.1 kv.2 tgt).issues) := by
  induction src with
  | nil => rfl
  | cons kv rest ih =>
    rw [checkKeys]
    dsimp only
    rw [checkKeys_acc]
    simp [ih]

theorem checkKeys_translated (ci : Bool) (locale ns : String)
    (src tgt : List (String × String)) :
    (checkKeys ci locale ns src tgt ⟨[], [], 0⟩).translated =
      (src.filter (fun kv => mhas tgt kv.1)).length := by
  induction src with
  | nil => rfl
  | cons kv rest ih =>
    rw [checkKeys]
    dsimp only
    rw [checkKeys_acc]
    dsimp only
    rw [ih, checkKey_translated]
    by_cases h : mhas tgt kv.1 <;> simp [h, List.filter_cons, Nat.add_comm]

theorem processNS_none (ci : Bool) (src : List (String × String)) (locale ns : String) :
    processNS ci src locale ns none =
      ⟨[⟨.error, locale, ns, "*", "File missing or invalid JSON"⟩],
       ghAnnotate ci "error" (fileOf locale ns) "File missing or invalid JSON",
       src.length, 0⟩ := rfl

theorem processNS_falsy (ci : Bool) (src : List (String × String)) (locale ns : String)
    (j : Json) (h : truthy j = false) :
    processNS ci src locale ns (some j) = processNS ci src locale ns none := by
  unfold processNS jsLoad
  simp [h]

theorem processNS_total (ci : Bool) (src : List (String × String)) (locale ns : String)
    (data : Option Json) :
    (processNS ci src locale ns data).total = src.length := by
  unfold processNS
  rcases jsLoad data with _ | j <;> rfl

theorem processNS_translated (ci : Bool) (src : List (String × String)) (locale ns : String)
    (data : Option Json) :
    (processNS ci src locale ns data).translated = countPresent src data := by
  unfold processNS countPresent
  rcases jsLoad data with _ | j
  · rfl
  · dsimp only
    rw [checkKeys_translated]

theorem processNS_issues_ci (ci : Bool) (src : List (String × String)) (locale ns : String)
    (data : Option Json) :
    (processNS ci src locale ns data).issues = (processNS false src locale ns data).issues := by
  unfold processNS
  rcases jsLoad data with _ | j
  · rfl
  · dsimp only
    rw [checkKeys_issues, checkKeys_issues]
    congr 1
    exact List.flatMap_congr (fun kv _ => checkKey_issues_ci ci locale ns kv.1 kv.2 _)

/-
Lemmas about the per-locale and per-target loops, the coverage map and the
source phase.
-/

theorem runNamespaces_acc (ci : Bool) (load : String → String → Option Json)
    (sd : List (String × List (String × String))) (locale : String)
    (nss : List String) (acc : NsResult) :
    runNamespaces ci load sd locale nss acc =
      ⟨acc.issues ++ (runNamespaces ci load sd locale nss ⟨[], [], 0, 0⟩).issues,
       acc.annots ++ (runNamespaces ci load sd locale nss ⟨[], [], 0, 0⟩).annots,
       acc.total + (runNamespaces ci load sd locale nss ⟨[], [], 0, 0⟩).total,
       acc.translated + (runNamespaces ci load sd locale nss ⟨[], [], 0, 0⟩).translated⟩ := by
  induction nss generalizing acc with
  | nil => simp [runNamespaces]
  | cons ns rest ih =>
    rw [runNamespaces, runNamespaces]
    dsimp only
    rw [ih, ih ⟨[] ++ _, [] ++ _, 0 + _, 0 + _⟩]
    simp [List.append_assoc, Nat.add_assoc]

theorem runNamespaces_translated (ci : Bool) (load : String → String → Option Json)
    (sd : List (String × List (String × String))) (locale : String) (nss : List String) :
    (runNamespaces ci load sd locale nss ⟨[], [], 0, 0⟩).translated =
      (nss.map (fun ns =>
        (processNS ci ((mget sd ns).getD []) locale ns (load locale ns)).translated)).sum := by
  induction nss with
  | nil => rfl
  | cons ns rest ih =>
    rw [runNamespaces]
    dsimp only
    rw [runNamespaces_acc]
    simp [ih]

theorem runNamespaces_total (ci : Bool) (load : String → String → Option Json)
    (sd : List (String × List (String × String))) (locale : String) (nss : List String) :
    (runNamespaces ci load sd locale nss ⟨[], [], 0, 0⟩).total =
      (nss.map (fun ns =>
        (processNS ci ((mget sd ns).getD []) locale ns (load locale ns)).total)).sum := by
  induction nss with
  | nil => rfl
  | cons ns rest ih =>
    rw [runNamespaces]
    dsimp only
    rw [runNamespaces_acc]
    simp [ih]

theorem runNamespaces_issues (ci : Bool) (load : String → String → Option Json)
    (sd : List (String × List (String × String))) (locale : String) (nss : List String) :
    (runNamespaces ci load sd locale nss ⟨[], [], 0, 0⟩).issues =
      nss.flatMap (fun ns =>
        (processNS ci ((mget sd ns).getD []) locale ns (load locale ns)).issues) := by
  induction nss with
  | nil => rfl
  | cons ns rest ih =>
    rw [runNamespaces]
    dsimp only
    rw [runNamespaces_acc]
    simp [ih]

theorem runLocale_issues_ci (ci : Bool) (load : String → String → Option Json)
    (sd : List (String × List (String × String))) (locale : String) :
    (runLocale ci load sd locale).issues = (runLocale false load sd locale).issues := by
  unfold runLocale
  rw [runNamespaces_issues, runNamespaces_issues]
  exact List.flatMap_congr (fun ns _ => processNS_issues_ci ci _ locale ns _)

theorem runLocale_total_ci (ci : Bool) (load : String → String → Option Json)
    (sd : List (String × List (String × String))) (locale : String) :
    (runLocale ci load sd locale).total = (runLocale false load sd locale).total := by
  unfold runLocale
  rw [runNamespaces_total, runNamespaces_total]
  congr 1
  exact List.map_congr_left (fun ns _ => by rw [processNS_total, processNS_total])

theorem runLocale_translated_ci (ci : Bool) (load : String → String → Option Json)
    (sd : List (String × List (String × String))) (locale : String) :
    (runLocale ci load sd locale).translated = (runLocale false load sd locale).translated := by
  unfold runLocale
  rw [runNamespaces_translated, runNamespaces_translated]
  congr 1
  exact List.map_congr_left (fun ns _ => by rw [processNS_translated, processNS_translated])

theorem mem_msetG {α : Type} (m : List (String × α)) (k : String) (v : α)
    (l : String) (c : α) (h : (l, c) ∈ msetG m k v) : (l = k ∧ c = v) ∨ (l, c) ∈ m := by
  unfold msetG at h
  split at h
  · rcases List.mem_map.mp h with ⟨p, hp, he⟩
    by_cases hpk : p.1 == k
    · rw [if_pos hpk] at he
      injection he with h1 h2
      exact Or.inl ⟨h1.symm, h2.symm⟩
    · rw [if_neg hpk] at he
      right
      exact he ▸ hp
  · rcases List.mem_append.mp h with hm | hs
    · right; exact hm
    · left
      simp only [List.mem_singleton, Prod.mk.injEq] at hs
      exact hs

theorem runTargets_cov (ci : Bool) (load : String → String → Option Json)
    (sd : List (String × List (String × String))) (targets : List String)
    (acc : List Issue × List String × List (String × Nat × Nat))
    (l : String) (t tr : Nat)
    (h : (l, t, tr) ∈ (runTargets ci load sd targets acc).2.2) :
    (l, t, tr) ∈ acc.2.2 ∨
      (t = (runLocale ci load sd l).total ∧ tr = (runLocale ci load sd l).translated) := by
  induction targets generalizing acc with
  | nil => exact Or.inl h
  | cons loc rest ih =>
    rw [runTargets] at h
    rcases ih _ h with hm | hp
    · rcases mem_msetG _ _ _ _ _ hm with ⟨hl, hc⟩ | hold
      · subst hl
        right
        exact ⟨congrArg Prod.fst hc, congrArg Prod.snd hc⟩
      · exact Or.inl hold
    · exact Or.inr hp

theorem runTargets_issues (ci : Bool) (load : String → String → Option Json)
    (sd : List (String × List (String × String))) (targets : List String)
    (acc : List Issue × List String × List (String × Nat × Nat)) :
    (runTargets ci load sd targets acc).1 =
      acc.1 ++ targets.flatMap (fun l => (runLocale ci load sd l).issues) := by
  induction targets generalizing acc with
  | nil => simp [runTargets]
  | cons loc rest ih =>
    rw [runTargets]
    rw [ih]
    simp

theorem runTargets_cov_ci (ci : Bool) (load : String → String → Option Json)
    (sd : List (String × List (String × String))) (targets : List String)
    (acc acc' : List Issue × List String × List (String × Nat × Nat))
    (hacc : acc.2.2 = acc'.2.2) :
    (runTargets ci load sd targets acc).2.2 = (runTargets false load sd targets acc').2.2 := by
  induction targets generalizing acc acc' with
  | nil => exact hacc
  | cons loc rest ih =>
    rw [runTargets, runTargets]
    exact ih _ _ (by
      dsimp only
      rw [hacc, runLocale_total_ci, runLocale_translated_ci])

theorem sourcePhase_error (load : String → String → Option Json) (nss : List String)
    (h : ∃ ns ∈ nss, jsLoad (load SOURCE_LOCALE ns) = none) :
    ∃ ns, sourcePhase load nss = .error ns := by
  induction nss with
  | nil => simp at h
  | cons ns rest ih =>
    rw [sourcePhase]
    rcases hl : jsLoad (load SOURCE_LOCALE ns) with _ | j
    · exact ⟨ns, rfl⟩
    · rcases h with ⟨m, hm, hload⟩
      rcases List.mem_cons.mp hm with he | hr
      · subst he
        rw [hload] at hl
        cases hl
      · rcases ih ⟨m, hr, hload⟩ with ⟨e, he⟩
        rw [he]
        exact ⟨e, rfl⟩

theorem sourcePhase_ok_sd (load : String → String → Option Json) (nss : List String)
    (sd : List (String × List (String × String))) (iss : List Issue)
    (h : sourcePhase load nss = .ok (sd, iss)) :
    sd = nss.map (fun ns => (ns, sourceFlat load ns)) := by
  induction nss generalizing sd iss with
  | nil =>
    rw [sourcePhase] at h
    cases h
    rfl
  | cons ns rest ih =>
    rw [sourcePhase] at h
    rcases hl : jsLoad (load SOURCE_LOCALE ns) with _ | j
    · rw [hl] at h; cases h
    · rw [hl] at h
      dsimp only at h
      rcases hr : sourcePhase load rest with e | ⟨sd', iss'⟩
      · rw [hr] at h; cases h
      · rw [hr] at h
        cases h
        rw [List.map_cons]
        refine congrArg₂ _ ?_ (ih _ _ hr)
        unfold sourceFlat
        rw [hl]

theorem mget_map_self {α : Type} (nss : List String) (f : String → α) (ns : String)
    (h : ns ∈ nss) :
    mget (nss.map (fun n => (n, f n))) ns = some (f ns) := by
  induction nss with
  | nil => simp at h
  | cons m rest ih =>
    unfold mget
    rw [List.map_cons, List.find?]
    by_cases he : m == ns
    · rw [he]
      rw [(by simpa using he : m = ns)]
      rfl
    · rw [Bool.not_eq_true] at he
      rw [he]
      rcases List.mem_cons.mp h with hh | hr
      · subst hh; simp at he
      · exact ih hr

/-
Filter lemmas used for the per-key uniqueness statements.
-/

theorem filter_key_flatMap {α β : Type} (l : List α) (f : α → List β) (p : β → Bool) :
    (l.flatMap f).filter p = l.flatMap (fun a => (f a).filter p) := by
  induction l with
  | nil => rfl
  | cons a rest ih => simp [List.flatMap_cons, List.filter_append, ih]

theorem flatMap_issue_filter (ci : Bool) (locale ns : String)
    (src tgt : List (String × String)) (k v : String)
    (hnd : (src.map Prod.fst).Nodup) (hmem : (k, v) ∈ src) :
    (src.flatMap (fun kv =>
        (checkKey ci locale ns kv.1 kv.2 tgt).issues.filter (fun i => i.key == k))) =
      (checkKey ci locale ns k v tgt).issues.filter (fun i => i.key == k) := by
  induction src with
  | nil => cases hmem
  | cons a rest ih =>
    rw [List.flatMap_cons]
    rcases List.mem_cons.mp hmem with he | hr
    · subst he
      have hrest : (rest.flatMap (fun kv =>
          (checkKey ci locale ns kv.1 kv.2 tgt).issues.filter (fun i => i.key == k))) = [] := by
        apply List.flatMap_eq_nil_iff.mpr
        intro kv hkv
        apply List.filter_eq_nil_iff.mpr
        intro i hi
        have hk := checkKey_key ci locale ns kv.1 kv.2 tgt i hi
        have hne : kv.1 ≠ k := by
          intro he
          exact (List.nodup_cons.mp hnd).1
            (he ▸ List.mem_map.mpr ⟨kv, hkv, rfl⟩)
        simp [hk, hne]
      rw [hrest, List.append_nil]
    · have ha : a.1 ≠ k := by
        intro he
        have hin : k ∈ rest.map Prod.fst := List.mem_map.mpr ⟨(k, v), hr, rfl⟩
        rw [← he] at hin
        exact (List.nodup_cons.mp hnd).1 hin
      have hhead : (checkKey ci locale ns a.1 a.2 tgt).issues.filter
          (fun i => i.key == k) = [] := by
        apply List.filter_eq_nil_iff.mpr
        intro i hi
        simp [checkKey_key ci locale ns a.1 a.2 tgt i hi, ha]
      rw [hhead, List.nil_append]
      exact ih (List.nodup_cons.mp hnd).2 hr

/-
Claim theorems (comparator / driver claims).
-/

/-- C6: for a (locale, namespace) pair whose document cannot be loaded,
exactly one file-level error Issue is emitted, no key-level Issues are
emitted for that pair, and every source key still counts toward `total`. -/
theorem c6_unloadable_target_file :
    ∀ (ci : Bool) (src : List (String × String)) (locale ns : String),
      processNS ci src locale ns none =
        ⟨[⟨.error, locale, ns, "*", "File missing or invalid JSON"⟩],
         ghAnnotate ci "error" (fileOf locale ns) "File missing or invalid JSON",
         src.length, 0⟩ :=
  fun _ _ _ _ => rfl

/-- C10: a target document that is valid JSON but a falsy value (`null`,
`false`, `0`, `""`) is treated exactly like a missing or unparsable file:
the single file-level error Issue, no key-level checks, full `total`. -/
theorem c10_falsy_document_like_missing :
    ∀ (ci : Bool) (src : List (String × String)) (locale ns : String) (j : Json),
      truthy j = false →
      processNS ci src locale ns (some j) =
        ⟨[⟨.error, locale, ns, "*", "File missing or invalid JSON"⟩],
         ghAnnotate ci "error" (fileOf locale ns) "File missing or invalid JSON",
         src.length, 0⟩ := by
  intro ci src locale ns j h
  rw [processNS_falsy ci src locale ns j h]
  rfl

/-- C10 witness: a target file whose whole content is `null`. -/
theorem c10_witness :
    truthy Json.null = false ∧
    processNS false [("a", "x")] "ko-KR" "game" (some Json.null) =
      ⟨[⟨.error, "ko-KR", "game", "*", "File missing or invalid JSON"⟩], [], 1, 0⟩ :=
  ⟨rfl, c10_falsy_document_like_missing false [("a", "x")] "ko-KR" "game" Json.null rfl⟩

/-- C2 (amended): for every target locale the `translated` coverage counter
equals the number of source keys *present* in the target flattening —
whether or not the value trims to the empty string. -/
theorem c2_translated_counts_present_keys :
    ∀ (load : String → String → Option Json) (targets : List String) (ci : Bool)
      (locale : String) (t tr : Nat),
      (locale, t, tr) ∈ (runMain load targets ci).coverage →
      tr = translatedOf load locale := by
  intro load targets ci locale t tr h
  unfold runMain at h
  rcases hsp : sourcePhase load NAMESPACES with ns | ⟨sd, iss⟩
  · rw [hsp] at h
    simp [RunOutcome.coverage] at h
  · rw [hsp] at h
    dsimp only at h
    by_cases ht : targets.isEmpty
    · rw [if_pos ht] at h
      simp [RunOutcome.coverage] at h
    · rw [if_neg ht] at h
      simp only [RunOutcome.coverage] at h
      rcases runTargets_cov ci load sd targets ([], [], []) locale t tr h with hin | ⟨_, hTr⟩
      · simp at hin
      · rw [hTr]
        unfold runLocale
        rw [runNamespaces_translated]
        unfold translatedOf
        congr 1
        apply List.map_congr_left
        intro ns hns
        rw [processNS_translated]
        congr 1
        rw [sourcePhase_ok_sd load NAMESPACES sd iss hsp, mget_map_self NAMESPACES _ ns hns]
        rfl

/-- C2 counterexample: the source has one key, its target value is
whitespace-only; `translated` is 1 although no key has a non-empty value,
so `translated` does not count only non-empty values. -/
theorem c2_counterexample :
    (runMain emptyValueLoad ["ko-KR"] false).coverage = [("ko-KR", 1, 1)] ∧
    nonemptyTranslatedOf emptyValueLoad "ko-KR" = 0 := by
  constructor
  · decide
  · decide

/-- C2 witness: the amended count at the same input. -/
theorem c2_witness :
    ("ko-KR", 1, 1) ∈ (runMain emptyValueLoad ["ko-KR"] false).coverage ∧
    (1 : Nat) = translatedOf emptyValueLoad "ko-KR" :=
  ⟨by decide,
   c2_translated_counts_present_keys emptyValueLoad ["ko-KR"] false "ko-KR" 1 1 (by decide)⟩

/-- C3 (amended): a source-locale load failure aborts the run before any
target locale is compared (no coverage, no issues reported), but the exit
status is 1 — the same as the normal error exit — not a distinct code. -/
theorem c3_source_failure_aborts_with_exit_1 :
    ∀ (load : String → String → Option Json) (targets : List String) (ci : Bool),
      (∃ ns ∈ NAMESPACES, jsLoad (load SOURCE_LOCALE ns) = none) →
      (runMain load targets ci).isFatal = true ∧
      (runMain load targets ci).exitCode = 1 ∧
      (runMain load targets ci).coverage = [] ∧
      (runMain load targets ci).issues = [] := by
  intro load targets ci h
  obtain ⟨ns, hns⟩ := sourcePhase_error load NAMESPACES h
  unfold runMain
  rw [hns]
  exact ⟨rfl, rfl, rfl, rfl⟩

/-- C3 counterexample: with every source file missing, the run aborts on
the fatal path with exit status 1, not a status distinct from 0 and 1. -/
theorem c3_counterexample :
    (runMain noSourceLoad ["ko-KR"] false).isFatal = true ∧
    (runMain noSourceLoad ["ko-KR"] false).exitCode = 1 := by
  constructor
  · decide
  · decide

/-- C3 witness: the amended statement applied at the all-missing input. -/
theorem c3_witness :
    (∃ ns ∈ NAMESPACES, jsLoad (noSourceLoad SOURCE_LOCALE ns) = none) ∧
    (runMain noSourceLoad ["ko-KR"] false).exitCode = 1 ∧
    (runMain noSourceLoad ["ko-KR"] false).isFatal = true :=
  ⟨⟨"game", by decide, rfl⟩,
   (c3_source_failure_aborts_with_exit_1 noSourceLoad ["ko-KR"] false
     ⟨"game", by decide, rfl⟩).2.1,
   (c3_source_failure_aborts_with_exit_1 noSourceLoad ["ko-KR"] false
     ⟨"game", by decide, rfl⟩).1⟩

/-- C1: with no target locales discovered and an invalid ICU message in the
source locale, an error Issue exists but the process exits 0 — the exit
code is not 1 whenever an error Issue was produced. -/
theorem c1_no_targets_drops_source_errors :
    (runMain badSourceLoad [] false).exitCode = 0 ∧
    (runMain badSourceLoad [] false).issues.filter (fun i => i.type == IssueType.error) ≠ [] := by
  constructor
  · decide
  · decide

/-- C8: the reported coverage percentage is
`round(translated / total * 100)`, defined as 0 when `total = 0`;
3 of 4 reports 75, a zero total reports 0 without dividing, and rounding is
half-up (1 of 8 reports 13). -/
theorem c8_coverage_percentage :
    (∀ total translated : Nat,
      coveragePct total translated =
        if 0 < total then round ((translated : ℚ) / (total : ℚ) * 100) else 0) ∧
    coveragePct 4 3 = 75 ∧ (∀ translated : Nat, coveragePct 0 translated = 0) ∧
    coveragePct 8 1 = 13 := by
  refine ⟨fun _ _ => rfl, ?_, fun _ => rfl, ?_⟩
  · norm_num [coveragePct, round_eq]
  · norm_num [coveragePct, round_eq]

/-- C9: the CI environment signal changes only formatting: issues, coverage
counters and the exit code are identical with and without it. -/
theorem c9_ci_signal_does_not_affect_outcome :
    ∀ (load : String → String → Option Json) (targets : List String),
      (runMain load targets true).issues = (runMain load targets false).issues ∧
      (runMain load targets true).coverage = (runMain load targets false).coverage ∧
      (runMain load targets true).exitCode = (runMain load targets false).exitCode := by
  intro load targets
  unfold runMain
  rcases hsp : sourcePhase load NAMESPACES with ns | ⟨sd, iss⟩
  · exact ⟨rfl, rfl, rfl⟩
  · dsimp only
    by_cases ht : targets.isEmpty
    · rw [if_pos ht, if_pos ht]
      exact ⟨rfl, rfl, rfl⟩
    · rw [if_neg ht, if_neg ht]
      have hIss : (runTargets true load sd targets ([], [], [])).1 =
          (runTargets false load sd targets ([], [], [])).1 := by
        rw [runTargets_issues, runTargets_issues]
        exact congrArg _
          (List.flatMap_congr (fun l _ => runLocale_issues_ci true load sd l))
      have hCov := runTargets_cov_ci true load sd targets ([], [], []) ([], [], []) rfl
      refine ⟨?_, ?_, ?_⟩
      · simp only [RunOutcome.issues]
        rw [hIss]
      · simp only [RunOutcome.coverage]
        exact hCov
      · simp only [RunOutcome.exitCode]
        rw [hIss]

/-- C7: a source key absent from the target flattening yields exactly one
warning Issue ("Missing translation") for that key among the pair's issues,
and its per-key check stops there: no annotation, no `translated`
increment, no further checks. -/
theorem c7_missing_translation :
    ∀ (ci : Bool) (locale ns : String) (src : List (String × String)) (j : Json)
      (k v : String),
      truthy j = true →
      (src.map Prod.fst).Nodup →
      (k, v) ∈ src →
      mget (flattenMap j "") k = none →
      (processNS ci src locale ns (some j)).issues.filter (fun i => i.key == k) =
        [⟨.warning, locale, ns, k, "Missing translation"⟩] ∧
      checkKey ci locale ns k v (flattenMap j "") =
        ⟨[⟨.warning, locale, ns, k, "Missing translation"⟩], [], 0⟩ := by
  intro ci locale ns src j k v hj hnd hmem habs
  refine ⟨?_, checkKey_absent ci locale ns k v _ habs⟩
  unfold processNS
  rw [show jsLoad (some j) = some j by simp [jsLoad, hj]]
  dsimp only
  rw [List.filter_append]
  have hextra : List.filter (fun i => i.key == k)
      (List.map (fun kv =>
        (⟨.error, locale, ns, kv.1, "Extra key not in source (en-US)"⟩ : Issue))
        (List.filter (fun kv => !(mhas src kv.1)) (flattenMap j ""))) = [] := by
    apply List.filter_eq_nil_iff.mpr
    intro i hi
    rcases List.mem_map.mp hi with ⟨kv, hkv, he⟩
    subst he
    have hmem2 : kv ∈ flattenMap j "" := List.mem_of_mem_filter hkv
    have hfind := List.find?_eq_none.mp
      (Option.map_eq_none'.mp habs) kv hmem2
    simpa using hfind
  rw [hextra, List.nil_append]
  rw [checkKeys_issues, filter_key_flatMap,
    flatMap_issue_filter ci locale ns src (flattenMap j "") k v hnd hmem,
    checkKey_absent ci locale ns k v _ habs]
  simp

/-- C7 witness: an empty target object misses the source key `a`. -/
theorem c7_witness :
    truthy (Json.obj []) = true ∧
    (([("a", "hello")] : List (String × String)).map Prod.fst).Nodup ∧
    ("a", "hello") ∈ ([("a", "hello")] : List (String × String)) ∧
    mget (flattenMap (Json.obj []) "") "a" = none ∧
    (processNS false [("a", "hello")] "ko-KR" "game" (some (Json.obj []))).issues.filter
        (fun i => i.key == "a") =
      [⟨.warning, "ko-KR", "game", "a", "Missing translation"⟩] :=
  ⟨rfl, by decide, by decide, rfl,
   (c7_missing_translation false "ko-KR" "game" [("a", "hello")] (Json.obj []) "a" "hello"
     rfl (by decide) (by decide) rfl).1⟩

/-
Lemmas about the placeholder collector (JS Set accumulator).
-/

theorem mem_addSet_iff (out : List String) (v x : String) :
    x ∈ addSet out v ↔ x ∈ out ∨ x = v := by
  by_cases hv : v ∈ out
  · simp only [addSet, if_pos hv]
    exact ⟨Or.inl, fun h => h.elim id (fun he => he ▸ hv)⟩
  · simp only [addSet, if_neg hv]
    simp [List.mem_append]

theorem mem_addSet_nil (v x : String) : x ∈ addSet [] v ↔ x = v := by
  rw [mem_addSet_iff]
  simp

theorem collect_mem_split :
    (∀ (el : Element) (out : List String) (x : String),
        x ∈ collectElem el out ↔ x ∈ out ∨ x ∈ collectElem el []) ∧
    (∀ (nodes : List Element) (out : List String) (x : String),
        x ∈ collectPlaceholders nodes out ↔ x ∈ out ∨ x ∈ collectPlaceholders nodes []) ∧
    (∀ (opts : List (String × List Element)) (out : List String) (x : String),
        x ∈ collectOptions opts out ↔ x ∈ out ∨ x ∈ collectOptions opts []) := by
  have h := collectElem.mutual_induct
    (fun el _ => ∀ (out : List String) (x : String),
        x ∈ collectElem el out ↔ x ∈ out ∨ x ∈ collectElem el [])
    (fun nodes _ => ∀ (out : List String) (x : String),
        x ∈ collectPlaceholders nodes out ↔ x ∈ out ∨ x ∈ collectPlaceholders nodes [])
    (fun opts _ => ∀ (out : List String) (x : String),
        x ∈ collectOptions opts out ↔ x ∈ out ∨ x ∈ collectOptions opts [])
    (by intro s _ out x; simp [collectElem])
    (by intro v _ out x
        simp only [collectElem]
        rw [mem_addSet_iff, mem_addSet_nil])
    (by intro v _ out x
        simp only [collectElem]
        rw [mem_addSet_iff, mem_addSet_nil])
    (by intro v _ out x
        simp only [collectElem]
        rw [mem_addSet_iff, mem_addSet_nil])
    (by intro v _ out x
        simp only [collectElem]
        rw [mem_addSet_iff, mem_addSet_nil])
    (by intro v opts _ ih out x
        simp only [collectElem]
        rw [ih (addSet out v) x, ih (addSet [] v) x, mem_addSet_iff, mem_addSet_nil]
        tauto)
    (by intro v opts _ ih out x
        simp only [collectElem]
        rw [ih (addSet out v) x, ih (addSet [] v) x, mem_addSet_iff, mem_addSet_nil]
        tauto)
    (by intro v children _ ih out x
        simp only [collectElem]
        rw [ih (addSet out ("<" ++ v ++ ">")) x, ih (addSet [] ("<" ++ v ++ ">")) x,
          mem_addSet_iff, mem_addSet_nil]
        tauto)
    (by intro _ out x
        simp [collectOptions])
    (by intro c sub rest _ ihsub ihrest out x
        simp only [collectOptions]
        rw [ihrest (collectPlaceholders sub out) x,
          ihrest (collectPlaceholders sub []) x, ihsub out x]
        tauto)
    (by intro _ out x
        simp [collectPlaceholders])
    (by intro el rest _ ihel ihrest out x
        simp only [collectPlaceholders]
        rw [ihrest (collectElem el out) x, ihrest (collectElem el []) x, ihel out x]
        tauto)
  exact ⟨fun el => h.1 el [], fun nodes => h.2.1 nodes [], fun opts => h.2.2 opts []⟩

theorem collectPlaceholders_mem_split (nodes : List Element) (out : List String)
    (x : String) :
    x ∈ collectPlaceholders nodes out ↔ x ∈ out ∨ x ∈ collectPlaceholders nodes [] :=
  collect_mem_split.2.1 nodes out x

/-- At the AST level, `collectPlaceholders` would behave as C5 describes:
it records for every tag node the tag-scoped identifier
`"<" + name + ">"` — an identifier distinct from the plain argument
identifier `name` — and recurses into the tag's children, so every
placeholder of the children is collected.  But the validator always parses
with `ignoreTag`, so no tag node is ever produced from a message and this
arm of the collector is unreachable (see `c5_tags_never_extracted`). -/
theorem c5_tag_nodes_collected :
    ∀ (nodes : List Element) (n : String) (children : List Element),
      Element.tag n children ∈ nodes →
      ("<" ++ n ++ ">") ∈ collectPlaceholders nodes [] ∧
      ("<" ++ n ++ ">") ≠ n ∧
      (∀ p ∈ collectPlaceholders children [], p ∈ collectPlaceholders nodes []) := by
  intro nodes n children hmem
  refine ⟨?_, ?_, ?_⟩
  · induction nodes with
    | nil => cases hmem
    | cons el rest ih =>
      rcases List.mem_cons.mp hmem with he | hr
      · subst he
        simp only [collectPlaceholders]
        rw [collectPlaceholders_mem_split]
        left
        simp only [collectElem]
        rw [collectPlaceholders_mem_split]
        left
        exact (mem_addSet_iff [] ("<" ++ n ++ ">") ("<" ++ n ++ ">")).mpr (Or.inr rfl)
      · simp only [collectPlaceholders]
        rw [collectPlaceholders_mem_split]
        right
        exact ih hr
  · intro he
    have hl := congrArg String.length he
    rw [String.length_append, String.length_append,
      show ("<" : String).length = 1 from rfl,
      show (">" : String).length = 1 from rfl] at hl
    omega
  · intro p hp
    induction nodes with
    | nil => cases hmem
    | cons el rest ih =>
      rcases List.mem_cons.mp hmem with he | hr
      · subst he
        simp only [collectPlaceholders]
        rw [collectPlaceholders_mem_split]
        left
        simp only [collectElem]
        rw [collectPlaceholders_mem_split]
        right
        exact hp
      · simp only [collectPlaceholders]
        rw [collectPlaceholders_mem_split]
        right
        exact ih hr

/-- C5: the code evaluated at the failing input.  Both parse calls in the
validator set `ignoreTag`, so a message containing tag markers yields no
tag-scoped identifier: its extracted placeholder set is empty (or contains
just the ordinary argument inside the marked span), although the claim —
and the repository's translation guide, which lists `<tag>` markers as
component placeholders that must be preserved — require a tag-scoped
identifier to be extracted. -/
theorem c5_tags_never_extracted :
    extractPlaceholders "<b>hi</b>" = [] ∧
    extractPlaceholders "<b>\x7bx\x7d</b>" = ["x"] ∧
    ("<" ++ "b" ++ ">") ∉ extractPlaceholders "<b>hi</b>" := by
  refine ⟨rfl, rfl, ?_⟩
  intro h
  simp [show extractPlaceholders "<b>hi</b>" = [] from rfl] at h

/-- A concrete instance of `c5_tag_nodes_collected`: an AST containing a
tag node (such ASTs can only be built by hand, never by the validator's
parse calls). -/
theorem tag_collection_instance :
    (Element.tag "b" [Element.argument "x"] ∈
      ([Element.tag "b" [Element.argument "x"]] : List Element)) ∧
    ("<" ++ "b" ++ ">") ∈
      collectPlaceholders [Element.tag "b" [Element.argument "x"]] [] :=
  ⟨List.mem_singleton.mpr rfl,
   (c5_tag_nodes_collected [Element.tag "b" [Element.argument "x"]] "b"
     [Element.argument "x"] (List.mem_singleton.mpr rfl)).1⟩

/-
Shape of the key paths `flatten` produces: under a nonempty entry path,
every recorded path is the entry path followed by an empty or `.`-headed
remainder; list entries carry their segment.
-/

theorem flatten_shape :
    (∀ (path : String) (v : Json), path ≠ "" →
        ∀ p ∈ keyList (flattenEntry path v),
          ∃ t, p.data = path.data ++ t ∧ sepHeaded t) ∧
    (∀ (fields : List (String × Json)) (path : String),
        (path ≠ "" ∨ ∀ kv ∈ fields, kv.1 ≠ "") →
        ∀ p ∈ keyList (flattenFields fields path),
          ∃ kv, kv ∈ fields ∧ ∃ t,
            p.data = (joinPath path kv.1).data ++ t ∧ sepHeaded t) ∧
    (∀ (items : List Json) (i : Nat) (path : String),
        ∀ p ∈ keyList (flattenIdx items i path),
          ∃ k t, i ≤ k ∧ p.data = (joinPath path (toString k)).data ++ t ∧ sepHeaded t) := by
  refine flattenEntry.mutual_induct
    (fun path v => path ≠ "" → ∀ p ∈ keyList (flattenEntry path v),
      ∃ t, p.data = path.data ++ t ∧ sepHeaded t)
    (fun fields path => (path ≠ "" ∨ ∀ kv ∈ fields, kv.1 ≠ "") →
      ∀ p ∈ keyList (flattenFields fields path),
        ∃ kv, kv ∈ fields ∧ ∃ t,
          p.data = (joinPath path kv.1).data ++ t ∧ sepHeaded t)
    (fun items i path => ∀ p ∈ keyList (flattenIdx items i path),
      ∃ k t, i ≤ k ∧ p.data = (joinPath path (toString k)).data ++ t ∧ sepHeaded t)
    ?_ ?_ ?_ ?_ ?_ ?_ ?_ ?_
  · intro path s _ p hp
    simp only [flattenEntry, keyList, List.map_cons, List.map_nil,
      List.mem_singleton] at hp
    subst hp
    exact ⟨[], (List.append_nil _).symm, Or.inl rfl⟩
  · intro path items ih hne p hp
    simp only [flattenEntry] at hp
    obtain ⟨k, t, _, hd, _⟩ := ih p hp
    refine ⟨'.' :: ((toString k).data ++ t), ?_, Or.inr ⟨_, rfl⟩⟩
    rw [hd, joinPath_data]
    unfold dotPre
    rw [if_neg hne]
    simp
  · intro path fields ih hne p hp
    simp only [flattenEntry] at hp
    obtain ⟨kv, _, t, hd, _⟩ := ih (Or.inl hne) p hp
    refine ⟨'.' :: (kv.1.data ++ t), ?_, Or.inr ⟨_, rfl⟩⟩
    rw [hd, joinPath_data]
    unfold dotPre
    rw [if_neg hne]
    simp
  · intro t x h1 h2 h3 _ p hp
    cases t with
    | str s => exact absurd rfl (h1 s)
    | arr items => exact absurd rfl (h2 items)
    | obj fields => exact absurd rfl (h3 fields)
    | num n => simp [flattenEntry, keyList] at hp
    | bool b => simp [flattenEntry, keyList] at hp
    | null => simp [flattenEntry, keyList] at hp
  · intro i path p hp
    simp [flattenIdx, keyList] at hp
  · intro v rest i path ihv ihrest p hp
    simp only [flattenIdx] at hp
    rw [keyList_append] at hp
    rcases List.mem_append.mp hp with hp | hp
    · obtain ⟨t, hd, hsh⟩ := ihv
        (joinPath_ne_empty path (toString i) (Or.inr (toString_nat_ne_empty i))) p hp
      exact ⟨i, t, le_refl i, hd, hsh⟩
    · obtain ⟨k, t, hk, hd, hsh⟩ := ihrest p hp
      exact ⟨k, t, by omega, hd, hsh⟩
  · intro path _ p hp
    simp [flattenFields, keyList] at hp
  · intro k v rest path ihv ihrest hne p hp
    simp only [flattenFields] at hp
    rw [keyList_append] at hp
    rcases List.mem_append.mp hp with hp | hp
    · have hjk : joinPath path k ≠ "" := by
        rcases hne with hp' | hk
        · exact joinPath_ne_empty path k (Or.inl hp')
        · exact joinPath_ne_empty path k (Or.inr (hk (k, v) (List.mem_cons_self _ _)))
      obtain ⟨t, hd, hsh⟩ := ihv hjk p hp
      exact ⟨(k, v), List.mem_cons_self _ _, t, hd, hsh⟩
    · have hne' : path ≠ "" ∨ ∀ kv ∈ rest, kv.1 ≠ "" := by
        rcases hne with h | h
        · exact Or.inl h
        · exact Or.inr (fun kv hkv => h kv (List.mem_cons_of_mem _ hkv))
      obtain ⟨kv, hkv, t, hd, hsh⟩ := ihrest hne' p hp
      exact ⟨kv, List.mem_cons_of_mem _ hkv, t, hd, hsh⟩

/-
Every string leaf in entry position yields exactly one recorded pair.
-/

theorem flatten_length :
    (∀ (path : String) (v : Json), (flattenEntry path v).length = entryLeafCount v) ∧
    (∀ (fields : List (String × Json)) (path : String),
        (flattenFields fields path).length = fieldsLeafCount fields) ∧
    (∀ (items : List Json) (i : Nat) (path : String),
        (flattenIdx items i path).length = itemsLeafCount items) := by
  refine flattenEntry.mutual_induct
    (fun path v => (flattenEntry path v).length = entryLeafCount v)
    (fun fields path => (flattenFields fields path).length = fieldsLeafCount fields)
    (fun items i path => (flattenIdx items i path).length = itemsLeafCount items)
    ?_ ?_ ?_ ?_ ?_ ?_ ?_ ?_
  · intro path s
    simp [flattenEntry, entryLeafCount]
  · intro path items ih
    simp [flattenEntry, entryLeafCount, ih]
  · intro path fields ih
    simp [flattenEntry, entryLeafCount, ih]
  · intro t x h1 h2 h3
    cases t with
    | str s => exact absurd rfl (h1 s)
    | arr items => exact absurd rfl (h2 items)
    | obj fields => exact absurd rfl (h3 fields)
    | num n => simp [flattenEntry, entryLeafCount]
    | bool b => simp [flattenEntry, entryLeafCount]
    | null => simp [flattenEntry, entryLeafCount]
  · intro i path
    simp [flattenIdx, itemsLeafCount]
  · intro v rest i path ihv ihrest
    simp [flattenIdx, itemsLeafCount, List.length_append, ihv, ihrest]
  · intro path
    simp [flattenFields, fieldsLeafCount]
  · intro k v rest path ihv ihrest
    simp [flattenFields, fieldsLeafCount, List.length_append, ihv, ihrest]

/-
On well-formed documents, the recorded key paths are pairwise distinct.
-/

theorem flatten_nodup :
    (∀ (path : String) (v : Json), WF v → (keyList (flattenEntry path v)).Nodup) ∧
    (∀ (fields : List (String × Json)) (path : String),
        (fields.map Prod.fst).Nodup → (∀ kv ∈ fields, goodKey kv.1) →
        (∀ kv ∈ fields, WF kv.2) → (keyList (flattenFields fields path)).Nodup) ∧
    (∀ (items : List Json) (i : Nat) (path : String),
        (∀ v ∈ items, WF v) → (keyList (flattenIdx items i path)).Nodup) := by
  refine flattenEntry.mutual_induct
    (fun path v => WF v → (keyList (flattenEntry path v)).Nodup)
    (fun fields path => (fields.map Prod.fst).Nodup → (∀ kv ∈ fields, goodKey kv.1) →
      (∀ kv ∈ fields, WF kv.2) → (keyList (flattenFields fields path)).Nodup)
    (fun items i path => (∀ v ∈ items, WF v) → (keyList (flattenIdx items i path)).Nodup)
    ?_ ?_ ?_ ?_ ?_ ?_ ?_ ?_
  · intro path s _
    simp [flattenEntry, keyList]
  · intro path items ih hwf
    simp only [flattenEntry]
    cases hwf with
    | arr _ h => exact ih h
  · intro path fields ih hwf
    simp only [flattenEntry]
    cases hwf with
    | obj _ hnd hgk hwfs => exact ih hnd hgk hwfs
  · intro t x h1 h2 h3 _
    cases t with
    | str s => exact absurd rfl (h1 s)
    | arr items => exact absurd rfl (h2 items)
    | obj fields => exact absurd rfl (h3 fields)
    | num n => simp [flattenEntry, keyList]
    | bool b => simp [flattenEntry, keyList]
    | null => simp [flattenEntry, keyList]
  · intro i path _
    simp [flattenIdx, keyList]
  · intro v rest i path ihv ihrest hwf
    simp only [flattenIdx]
    rw [keyList_append, List.nodup_append]
    refine ⟨ihv (hwf v (List.mem_cons_self _ _)),
      ihrest (fun w hw => hwf w (List.mem_cons_of_mem _ hw)), ?_⟩
    intro p hp1 hp2
    obtain ⟨t1, hd1, hs1⟩ := flatten_shape.1 (joinPath path (toString i)) v
      (joinPath_ne_empty path (toString i) (Or.inr (toString_nat_ne_empty i))) p hp1
    obtain ⟨kk, t2, hk, hd2, hs2⟩ := flatten_shape.2.2 rest (i + 1) path p hp2
    obtain ⟨hseg, _⟩ := path_block_eq path (toString i) (toString kk) t1 t2
      (toString_nat_not_dot i) (toString_nat_not_dot kk) hs1 hs2 (hd1.symm.trans hd2)
    have : i = kk := toString_nat_inj hseg
    omega
  · intro path _ _ _
    simp [flattenFields, keyList]
  · intro k v rest path ihv ihrest hnd hgk hwfs
    simp only [flattenFields]
    rw [keyList_append, List.nodup_append]
    rw [List.map_cons] at hnd
    have hk_notin := (List.nodup_cons.mp hnd).1
    have hnd' := (List.nodup_cons.mp hnd).2
    have hgkk : goodKey k := hgk (k, v) (List.mem_cons_self _ _)
    refine ⟨ihv (hwfs (k, v) (List.mem_cons_self _ _)),
      ihrest hnd' (fun kv hkv => hgk kv (List.mem_cons_of_mem _ hkv))
        (fun kv hkv => hwfs kv (List.mem_cons_of_mem _ hkv)), ?_⟩
    intro p hp1 hp2
    obtain ⟨t1, hd1, hs1⟩ := flatten_shape.1 (joinPath path k) v
      (joinPath_ne_empty path k (Or.inr hgkk.1)) p hp1
    obtain ⟨kv, hkv, t2, hd2, hs2⟩ := flatten_shape.2.1 rest path
      (Or.inr (fun w hw => (hgk w (List.mem_cons_of_mem _ hw)).1)) p hp2
    obtain ⟨hseg, _⟩ := path_block_eq path k kv.1 t1 t2 hgkk.2
      (hgk kv (List.mem_cons_of_mem _ hkv)).2 hs1 hs2 (hd1.symm.trans hd2)
    exact hk_notin (hseg ▸ List.mem_map.mpr ⟨kv, hkv, rfl⟩)

/-- C4 (amended): on well-formed documents — object keys pairwise
distinct, nonempty and free of the `.` separator — flattening is injective:
every string leaf occurring as an object field or array element yields
exactly one entry, and all recorded key paths are pairwise distinct, so no
leaf's value is lost or overwritten. -/
theorem c4_flatten_injective_on_wellformed :
    ∀ j : Json, WF j →
      (keyList (flatten j "")).Nodup ∧ (flatten j "").length = leafCount j := by
  intro j hwf
  cases j with
  | str s => exact ⟨List.nodup_nil, rfl⟩
  | num n => exact ⟨List.nodup_nil, rfl⟩
  | bool b => exact ⟨List.nodup_nil, rfl⟩
  | null => exact ⟨List.nodup_nil, rfl⟩
  | arr items =>
    cases hwf with
    | arr _ h => exact ⟨flatten_nodup.2.2 items 0 "" h, flatten_length.2.2 items 0 ""⟩
  | obj fields =>
    cases hwf with
    | obj _ hnd hgk hwfs =>
      exact ⟨flatten_nodup.2.1 fields "" hnd hgk hwfs, flatten_length.2.1 fields ""⟩

/-- C4 counterexample: three valid JSON trees on which distinct string
leaves collide — a key containing the separator (`"a.b"` versus nested
`"a"`/`"b"`, where the later value overwrites the earlier in the resulting
map), an empty key, and duplicate sibling keys. -/
theorem c4_counterexample :
    ¬ (keyList (flatten
        (Json.obj [("a.b", .str "x"), ("a", .obj [("b", .str "y")])]) "")).Nodup ∧
    (flattenMap (Json.obj [("a.b", .str "x"), ("a", .obj [("b", .str "y")])]) "").length = 1 ∧
    leafCount (Json.obj [("a.b", .str "x"), ("a", .obj [("b", .str "y")])]) = 2 ∧
    ¬ (keyList (flatten
        (Json.obj [("", .obj [("a", .str "x")]), ("a", .str "y")]) "")).Nodup ∧
    ¬ (keyList (flatten (Json.obj [("a", .str "x"), ("a", .str "y")]) "")).Nodup := by
  refine ⟨?_, ?_, ?_, ?_, ?_⟩ <;> decide

/-- C4 witness: a concrete well-formed document. -/
theorem c4_witness :
    WF (Json.obj [("a", .str "x"), ("b", .arr [.str "y", .str "z"])]) ∧
    (keyList (flatten (Json.obj [("a", .str "x"), ("b", .arr [.str "y", .str "z"])]) "")).Nodup ∧
    (flatten (Json.obj [("a", .str "x"), ("b", .arr [.str "y", .str "z"])]) "").length =
      leafCount (Json.obj [("a", .str "x"), ("b", .arr [.str "y", .str "z"])]) := by
  have hwf : WF (Json.obj [("a", .str "x"), ("b", .arr [.str "y", .str "z"])]) := by
    refine WF.obj _ (by decide) ?_ ?_
    · intro kv hkv
      rcases List.mem_cons.mp hkv with he | hkv
      · subst he
        exact ⟨by decide, by decide⟩
      · rcases List.mem_cons.mp hkv with he | hkv
        · subst he
          exact ⟨by decide, by decide⟩
        · cases hkv
    · intro kv hkv
      rcases List.mem_cons.mp hkv with he | hkv
      · subst he
        exact WF.str "x"
      · rcases List.mem_cons.mp hkv with he | hkv
        · subst he
          refine WF.arr _ ?_
          intro w hw
          rcases List.mem_cons.mp hw with he | hw
          · subst he
            exact WF.str "y"
          · rcases List.mem_cons.mp hw with he | hw
            · subst he
              exact WF.str "z"
            · cases hw
        · cases hkv
  exact ⟨hwf, (c4_flatten_injective_on_wellformed _ hwf).1,
    (c4_flatten_injective_on_wellformed _ hwf).2⟩
